import Mathlib

/-!
Verification of the provenance-integrity core of the
`jcaa_2026-02-19` validation scripts
(`run_provenance_extended_validation.py` and
`run_llm_provenance_validation.py`).

A Python record (a `dict[str, str]` — every loader coerces values with
`str(...)`) is embedded as an association list `Record` with the
ordinary `dict` lookup/assignment semantics.  `json.dumps(value,
sort_keys=True, ensure_ascii=True, separators=(",", ":"))` is embedded
as `canonical_json` (keys sorted lexicographically, whitespace-free
separators, ASCII escaping on the Basic Multilingual Plane).  The
SHA-256 hex digest itself is immaterial to every property here,
so the digest core is a parameter `H : String → String`; facts the
scripts rely on (the digest of a record is a non-empty hex string, and
distinct records in a run do not collide) appear as explicit
hypotheses where they are needed.
-/

namespace Provenance

/-- The lineage key `generated_label`. -/
def kLabel : String := "generated_label"

/-- The lineage key `generated_by`. -/
def kBy : String := "generated_by"

/-- The lineage key `generated_at`. -/
def kAt : String := "generated_at"

/-- The lineage key `parent_sha256`. -/
def kParent : String := "parent_sha256"

/-- The lineage key `ancestor_source_sha256` (two-hop only). -/
def kAncestor : String := "ancestor_source_sha256"

/-- The derivative body key `summary`. -/
def kSummary : String := "summary"

/-- A flat record: a Python `dict[str, str]` in insertion order. -/
abbrev Record := List (String × String)

/-- Python `rec.get(k)`: the value stored under a key, if present. -/
def dget (r : Record) (k : String) : Option String :=
  (r.find? (fun p => p.1 == k)).map (fun p => p.2)

/-- Python `rec.get(k, "")`: lookup defaulting to the empty string. -/
def dgetD (r : Record) (k : String) : String :=
  (dget r k).getD ""

/-- Python `k in rec`. -/
def hasKey (r : Record) (k : String) : Bool :=
  r.any (fun p => p.1 == k)

/-- Python `rec[k] = v` on a `dict`: replace the value in place when the
key is present, append the pair otherwise. -/
def dset (r : Record) (k v : String) : Record :=
  if hasKey r k then r.map (fun p => if p.1 == k then (k, v) else p)
  else r ++ [(k, v)]

/-- Relation used to sort key/value pairs by key (`sort_keys=True`). -/
def keyLE {α : Type} (p q : String × α) : Prop := p.1 ≤ q.1

/-- Strict version of `keyLE`, used to show sorted forms are unique. -/
def keyLT {α : Type} (p q : String × α) : Prop := p.1 < q.1

instance {α : Type} : DecidableRel (keyLE (α := α)) :=
  fun p q => inferInstanceAs (Decidable (p.1 ≤ q.1))

instance {α : Type} : IsTotal (String × α) keyLE :=
  ⟨fun p q => le_total p.1 q.1⟩

instance {α : Type} : IsTrans (String × α) keyLE :=
  ⟨fun _ _ _ h h' => le_trans h h'⟩

instance {α : Type} : IsAntisymm (String × α) keyLT :=
  ⟨fun _ _ h h' => absurd h' (lt_asymm h)⟩

/-- Hex digit for a value below 16 (lower case, as Python emits). -/
def hexDigit (n : Nat) : Char :=
  if n < 10 then Char.ofNat (48 + n) else Char.ofNat (87 + n)

/-- Four-digit hex rendering of a code point, for `\uXXXX` escapes. -/
def hex4 (n : Nat) : String :=
  String.mk [hexDigit (n / 4096 % 16), hexDigit (n / 256 % 16),
             hexDigit (n / 16 % 16), hexDigit (n % 16)]

/-- JSON escaping of one character as `json.dumps(..., ensure_ascii=True)`
performs it (Basic Multilingual Plane; the repository's data is ASCII). -/
def escChar (c : Char) : String :=
  if c = '"' then "\\\""
  else if c = '\\' then "\\\\"
  else if c.toNat < 32 ∨ c.toNat > 126 then "\\u" ++ hex4 c.toNat
  else String.mk [c]

/-- A JSON string literal: quotes around the escaped characters. -/
def jstr (s : String) : String :=
  "\"" ++ String.join (s.data.map escChar) ++ "\""

/-- Key/value pairs sorted by key, as `sort_keys=True` orders them. -/
def sortPairs (r : Record) : Record :=
  List.insertionSort keyLE r

/-- The canonicalizer `canonical_json` of both scripts restricted to
string-valued records: `json.dumps(value, sort_keys=True,
ensure_ascii=True, separators=(",", ":"))`. -/
def canonical_json (r : Record) : String :=
  "\x7b" ++
    String.intercalate ","
      ((sortPairs r).map (fun p => jstr p.1 ++ ":" ++ jstr p.2)) ++
  "\x7d"

/-- The digest engine `sha256_value`: the digest core
`hashlib.sha256(... .encode("utf-8")).hexdigest()` is the parameter
`H`; the function digests the canonical serialization. -/
def sha256_value (H : String → String) (r : Record) : String :=
  H (canonical_json r)

/-- Keys of a record, in order. -/
def keysOf (r : Record) : List String :=
  r.map Prod.fst

/-- A list sorted by `keyLE` whose keys are distinct is sorted by the
strict relation `keyLT`. -/
theorem sorted_keyLT_of_sorted_keyLE {α : Type} {l : List (String × α)}
    (hs : List.Sorted keyLE l) (hnd : (l.map Prod.fst).Nodup) :
    List.Sorted keyLT l := by
  have hne : List.Pairwise (fun p q : String × α => p.1 ≠ q.1) l :=
    List.pairwise_map.mp hnd
  have := hs.and hne
  exact this.imp (fun h => lt_of_le_of_ne h.1 h.2)

/-- Two records with the same key/value pairs (in any order) and
duplicate-free keys have the same sorted form. -/
theorem sortPairs_eq_of_perm {r1 r2 : Record}
    (hp : r1.Perm r2) (hnd : (keysOf r1).Nodup) :
    sortPairs r1 = sortPairs r2 := by
  have h1 : (sortPairs r1).Perm r1 := List.perm_insertionSort keyLE r1
  have h2 : (sortPairs r2).Perm r2 := List.perm_insertionSort keyLE r2
  have h12 : (sortPairs r1).Perm (sortPairs r2) :=
    (h1.trans hp).trans h2.symm
  have hnd1 : ((sortPairs r1).map Prod.fst).Nodup :=
    ((h1.map Prod.fst).nodup_iff).mpr hnd
  have hnd2 : ((sortPairs r2).map Prod.fst).Nodup :=
    ((h12.map Prod.fst).nodup_iff).mp hnd1
  exact List.eq_of_perm_of_sorted h12
    (sorted_keyLT_of_sorted_keyLE (List.sorted_insertionSort keyLE r1) hnd1)
    (sorted_keyLT_of_sorted_keyLE (List.sorted_insertionSort keyLE r2) hnd2)

/-- C6 — For every pair of records with identical key/value sets (the
same field names mapped to the same scalar values, in any insertion
order), the fingerprint `sha256_value(canonical_json(record))` of the
two records is identical; and repeated calls on the same record always
return the same fingerprint (the pipeline is purely functional). -/
theorem c6_fingerprint_deterministic (H : String → String) (r1 r2 : Record)
    (hp : r1.Perm r2) (hnd : (keysOf r1).Nodup) :
    sha256_value H r1 = sha256_value H r2 ∧
      sha256_value H r1 = sha256_value H r1 := by
  refine ⟨?_, rfl⟩
  unfold sha256_value canonical_json
  rw [sortPairs_eq_of_perm hp hnd]

/-- Witness for C6 at a concrete pair of records that differ only in
insertion order. -/
theorem c6_fingerprint_deterministic_witness :
    sha256_value (fun s => s) [("b", "2"), ("a", "1")] =
        sha256_value (fun s => s) [("a", "1"), ("b", "2")] ∧
      sha256_value (fun s => s) [("b", "2"), ("a", "1")] =
        sha256_value (fun s => s) [("b", "2"), ("a", "1")] :=
  c6_fingerprint_deterministic (fun s => s) _ _ (by decide) (by decide)

/-- The source fingerprint list `[sha256_value(r) for r in records]`;
Python set membership on it is `List.contains`. -/
def hashes (H : String → String) (rs : List Record) : List String :=
  rs.map (sha256_value H)

/-- The dict comprehension pairing each digest with its record
(`source_by_hash`), as a lookup function: for duplicate digests the
comprehension keeps the last entry, so the reversed pair list is
searched front to back. -/
def by_hash (H : String → String) (rs : List Record) (h0 : String) :
    Option Record :=
  (((rs.map (fun r => (sha256_value H r, r))).reverse.find?
      (fun p => p.1 == h0)).map (fun p => p.2))

/-- `lineage_complete` of both scripts: each of the four mandatory
lineage fields must be present and truthy (Python treats a missing key
and an empty string identically here — both are falsy). -/
def lineage_complete (d : Record) : Bool :=
  [kLabel, kBy, kAt, kParent].all (fun k => dgetD d k != "")

/-- `audit_one_hop` of `run_llm_provenance_validation.py` (lines
182–199): lineage completeness, parent resolvability in the known
source digest set, the Python truthiness guard `if not src` on the
resolved record, and exact mandatory-field fidelity. -/
def audit_one_hop (srcHashes : List String) (lookup : String → Option Record)
    (d : Record) (mfs : List String) : Bool :=
  lineage_complete d &&
    (let parent := dgetD d kParent
     srcHashes.contains parent &&
       match lookup parent with
       | none => false
       | some src =>
           !src.isEmpty && mfs.all (fun f => dgetD d f == dgetD src f))

/-- `audit_record` of `run_provenance_extended_validation.py` (lines
239–260); its body is line-for-line the same policy as
`audit_one_hop` in the sibling script. -/
def audit_record (srcHashes : List String) (lookup : String → Option Record)
    (d : Record) (mfs : List String) : Bool :=
  audit_one_hop srcHashes lookup d mfs

/-- `audit_two_hop` of `run_llm_provenance_validation.py` (lines
202–229): additionally the parent must resolve in the intermediate
(hop-1) set, the claimed ancestor in the source set, the resolved
intermediate's own `parent_sha256` must equal the claimed ancestor,
and fidelity is checked against the resolved ancestor. -/
def audit_two_hop (srcHashes : List String) (srcLookup : String → Option Record)
    (hop1Hashes : List String) (hop1Lookup : String → Option Record)
    (d : Record) (mfs : List String) : Bool :=
  lineage_complete d &&
    (let parent := dgetD d kParent
     let ancestor := dgetD d kAncestor
     hop1Hashes.contains parent &&
       (srcHashes.contains ancestor &&
         match hop1Lookup parent with
         | none => false
         | some hop1 =>
             !hop1.isEmpty && (dgetD hop1 kParent == ancestor) &&
               match srcLookup ancestor with
               | none => false
               | some src =>
                   !src.isEmpty &&
                     mfs.all (fun f => dgetD d f == dgetD src f)))

/-- The lineage builder `transform_provenance` of
`run_provenance_extended_validation.py` (lines 215–225): the literal
dict of the five lineage/body fields, then `out[f] = rec.get(f, "")`
for each mandatory field. -/
def transform_provenance (rec : Record) (mfs : List String)
    (parent_hash generated_at : String) : Record :=
  mfs.foldl (fun o f => dset o f (dgetD rec f))
    [(kLabel, "DERIVED_RECORD"), (kBy, "deterministic_transform_v2"),
     (kAt, generated_at), (kParent, parent_hash), (kSummary, "")]

/-- In-place replacement leaves the first match for the replaced key at
the pair `(k, v)`. -/
theorem find?_map_dset_self (r : Record) (k v : String)
    (h : hasKey r k = true) :
    List.find? (fun p => p.1 == k)
        (r.map (fun p => if p.1 == k then (k, v) else p)) = some (k, v) := by
  induction r with
  | nil => cases h
  | cons q t ih =>
      by_cases hq : (q.1 == k) = true
      · rw [List.map_cons, if_pos hq]
        exact @List.find?_cons_of_pos _ (fun p => p.1 == k) (k, v) _ (by simp)
      · rw [List.map_cons, if_neg hq,
            @List.find?_cons_of_neg _ (fun p => p.1 == k) q _ hq]
        have ht : hasKey t k = true := by
          unfold hasKey at h ⊢
          rw [Bool.not_eq_true] at hq
          simpa [List.any_cons, hq] using h
        exact ih ht

/-- In-place replacement for one key does not move or change the first
match for any other key. -/
theorem find?_map_dset_ne (r : Record) (k v k' : String) (h : k' ≠ k) :
    List.find? (fun p => p.1 == k')
        (r.map (fun p => if p.1 == k then (k, v) else p)) =
      List.find? (fun p => p.1 == k') r := by
  have hkk' : (k == k') = false := by
    simp only [beq_eq_false_iff_ne, ne_eq]
    exact fun hc => h hc.symm
  induction r with
  | nil => rfl
  | cons q t ih =>
      by_cases hq : (q.1 == k) = true
      · have hq1 : q.1 = k := by simpa using hq
        rw [List.map_cons, if_pos hq,
            @List.find?_cons_of_neg _ (fun p => p.1 == k') (k, v) _
              (by simp [hkk']),
            @List.find?_cons_of_neg _ (fun p => p.1 == k') q t
              (by simp [hq1, hkk'])]
        exact ih
      · rw [List.map_cons, if_neg hq]
        by_cases hq' : (q.1 == k') = true
        · rw [@List.find?_cons_of_pos _ (fun p => p.1 == k') q _ hq',
              @List.find?_cons_of_pos _ (fun p => p.1 == k') q t hq']
        · rw [@List.find?_cons_of_neg _ (fun p => p.1 == k') q _ hq',
              @List.find?_cons_of_neg _ (fun p => p.1 == k') q t hq']
          exact ih

/-- Absent key: the whole record has no match. -/
theorem find?_eq_none_of_not_hasKey (r : Record) (k : String)
    (h : ¬hasKey r k = true) :
    r.find? (fun p => p.1 == k) = none := by
  rw [List.find?_eq_none]
  intro p hp hc
  exact h (by unfold hasKey; rw [List.any_eq_true]; exact ⟨p, hp, hc⟩)

/-- Lookup after assignment, same key: the assigned value is read. -/
theorem dget_dset_self (r : Record) (k v : String) :
    dget (dset r k v) k = some v := by
  unfold dset
  by_cases h : hasKey r k = true
  · rw [if_pos h]
    unfold dget
    rw [find?_map_dset_self r k v h]
    rfl
  · rw [if_neg h]
    unfold dget
    rw [List.find?_append, find?_eq_none_of_not_hasKey r k h]
    simp [List.find?]

/-- Lookup after assignment, other key: the record is unchanged there. -/
theorem dget_dset_ne (r : Record) (k v k' : String) (h : k' ≠ k) :
    dget (dset r k v) k' = dget r k' := by
  unfold dset
  by_cases hk : hasKey r k = true
  · rw [if_pos hk]
    unfold dget
    rw [find?_map_dset_ne r k v k' h]
  · rw [if_neg hk]
    unfold dget
    rw [List.find?_append]
    have hkn : ¬(k = k') := fun hc => h hc.symm
    have hone : List.find? (fun p => p.1 == k') [(k, v)] = none := by
      simp [List.find?_cons, hkn]
    rw [hone]
    cases List.find? (fun p => p.1 == k') r <;> rfl

/-- Defaulted-lookup version of `dget_dset_self`. -/
theorem dgetD_dset_self (r : Record) (k v : String) :
    dgetD (dset r k v) k = v := by
  unfold dgetD; rw [dget_dset_self]; rfl

/-- Defaulted-lookup version of `dget_dset_ne`. -/
theorem dgetD_dset_ne (r : Record) (k v k' : String) (h : k' ≠ k) :
    dgetD (dset r k v) k' = dgetD r k' := by
  unfold dgetD; rw [dget_dset_ne r k v k' h]

/-- Reading any key after the mandatory-field copy loop of the builder:
keys in the loop read the source's (defaulted) value, the rest read the
base dict. -/
theorem dgetD_foldl_dset (g : String → String) (mfs : List String) :
    ∀ (o0 : Record) (k : String),
      dgetD (mfs.foldl (fun o f => dset o f (g f)) o0) k =
        if k ∈ mfs then g k else dgetD o0 k := by
  induction mfs with
  | nil => intro o0 k; simp
  | cons f t ih =>
      intro o0 k
      simp only [List.foldl_cons]
      rw [ih]
      by_cases hkt : k ∈ t
      · simp [hkt, List.mem_cons]
      · by_cases hkf : k = f
        · subst hkf
          simp [hkt, dgetD_dset_self]
        · simp [hkt, hkf, dgetD_dset_ne _ _ _ _ hkf]

/-- Lookup on a cons cell. -/
theorem dget_cons (k v : String) (r : Record) (k' : String) :
    dget ((k, v) :: r) k' = if k = k' then some v else dget r k' := by
  by_cases h : k = k'
  · subst h
    rw [if_pos rfl]
    unfold dget
    rw [@List.find?_cons_of_pos _ (fun p => p.1 == k) (k, v) r (by simp)]
    rfl
  · rw [if_neg h]
    unfold dget
    rw [@List.find?_cons_of_neg _ (fun p => p.1 == k') (k, v) r (by simp [h])]

/-- The base dict literal of `transform_provenance`. -/
def provBase (parent_hash generated_at : String) : Record :=
  [(kLabel, "DERIVED_RECORD"), (kBy, "deterministic_transform_v2"),
   (kAt, generated_at), (kParent, parent_hash), (kSummary, "")]

/-- Lineage lookups on the builder's base dict. -/
theorem provBase_lookups (ph ts : String) :
    dgetD (provBase ph ts) kLabel = "DERIVED_RECORD" ∧
      dgetD (provBase ph ts) kBy = "deterministic_transform_v2" ∧
      dgetD (provBase ph ts) kAt = ts ∧
      dgetD (provBase ph ts) kParent = ph := by
  refine ⟨?_, ?_, ?_, ?_⟩ <;>
    · unfold dgetD provBase
      repeat rw [dget_cons]
      simp [kLabel, kBy, kAt, kParent, kSummary]

/-- The builder expressed via its base dict. -/
theorem transform_provenance_eq (rec : Record) (mfs : List String)
    (ph ts : String) :
    transform_provenance rec mfs ph ts =
      mfs.foldl (fun o f => dset o f (dgetD rec f)) (provBase ph ts) := rfl

/-- Any field of a built derivative: mandatory fields carry the source's
(defaulted) value, all other keys read the base dict. -/
theorem transform_provenance_dgetD (rec : Record) (mfs : List String)
    (ph ts k : String) :
    dgetD (transform_provenance rec mfs ph ts) k =
      if k ∈ mfs then dgetD rec k else dgetD (provBase ph ts) k := by
  rw [transform_provenance_eq, dgetD_foldl_dset]

/-- Resolution through the fingerprint map: when digests are injective
on the run's source records, the map resolves a source's digest to that
source. -/
theorem by_hash_resolves (H : String → String) (sources : List Record)
    (src : Record) (hsrc : src ∈ sources)
    (hinj : ∀ r1 ∈ sources, ∀ r2 ∈ sources,
      sha256_value H r1 = sha256_value H r2 → r1 = r2) :
    by_hash H sources (sha256_value H src) = some src := by
  unfold by_hash
  set prs := (sources.map (fun r => (sha256_value H r, r))).reverse with hprs
  have hmem : ((sha256_value H src, src) : String × Record) ∈ prs := by
    rw [hprs, List.mem_reverse, List.mem_map]
    exact ⟨src, hsrc, rfl⟩
  have hsome : (prs.find? (fun p => p.1 == sha256_value H src)).isSome = true := by
    rw [List.find?_isSome]
    exact ⟨_, hmem, by simp⟩
  obtain ⟨q, hq⟩ := Option.isSome_iff_exists.mp hsome
  have hqp : (q.1 == sha256_value H src) = true :=
    @List.find?_some _ (fun p => p.1 == sha256_value H src) q prs hq
  have hqm : q ∈ prs := List.mem_of_find?_eq_some hq
  rw [hprs, List.mem_reverse, List.mem_map] at hqm
  obtain ⟨r, hr, hqr⟩ := hqm
  have hq1 : q.1 = sha256_value H src := by simpa using hqp
  have hr2 : q.2 = r := by rw [← hqr]
  have hrh : sha256_value H r = sha256_value H src := by
    rw [← hq1, ← hqr]
  have : r = src := hinj r hr src hsrc hrh
  rw [hq]
  simp [hr2, this]

/-- Counterexample to C1 as stated: a derivative built by the builder
from a known source with verbatim mandatory fields, non-empty
`generated_label`/`generated_by`/`generated_at` and `parent_sha256`
equal to the source's fingerprint, which `audit_one_hop` nevertheless
rejects — because the source record is the empty mapping and the
audit's Python truthiness guard `if not src` treats the resolved empty
dict as unresolvable. -/
theorem c1_counterexample :
    audit_one_hop (hashes (fun s => String.append "#" s) [[]])
        (by_hash (fun s => String.append "#" s) [[]])
        (transform_provenance [] ["title"]
          (sha256_value (fun s => String.append "#" s) []) "2026-02-19")
        ["title"] = false := by
  decide

/-- C1 amended — For every list of source records whose fingerprints
are non-empty and collision-free on that list, and every derivative
built by `transform_provenance` from a non-empty source of that list
(mandatory context fields copied verbatim, non-empty generated_at, and
parent_sha256 equal to the fingerprint of that source; the mandatory
field list does not name a lineage key), `audit_one_hop` returns true
when given the fingerprint set and fingerprint-to-record map of those
sources and the same mandatory field list.  The non-emptiness of the
source record is the one amendment the code forces: `audit_one_hop`'s
guard `if not src` rejects a resolved source that is the empty
mapping. -/
theorem c1_one_hop_accept (H : String → String) (sources : List Record)
    (src : Record) (mfs : List String) (ts : String)
    (hsrc : src ∈ sources)
    (hinj : ∀ r1 ∈ sources, ∀ r2 ∈ sources,
      sha256_value H r1 = sha256_value H r2 → r1 = r2)
    (hhe : sha256_value H src ≠ "") (hts : ts ≠ "") (hno : src ≠ [])
    (hml : kLabel ∉ mfs) (hmb : kBy ∉ mfs) (hma : kAt ∉ mfs)
    (hmp : kParent ∉ mfs) :
    audit_one_hop (hashes H sources) (by_hash H sources)
      (transform_provenance src mfs (sha256_value H src) ts) mfs = true := by
  set d := transform_provenance src mfs (sha256_value H src) ts with hd
  obtain ⟨hb1, hb2, hb3, hb4⟩ := provBase_lookups (sha256_value H src) ts
  have hdl : dgetD d kLabel = "DERIVED_RECORD" := by
    rw [hd, transform_provenance_dgetD, if_neg hml, hb1]
  have hdb : dgetD d kBy = "deterministic_transform_v2" := by
    rw [hd, transform_provenance_dgetD, if_neg hmb, hb2]
  have hda : dgetD d kAt = ts := by
    rw [hd, transform_provenance_dgetD, if_neg hma, hb3]
  have hdp : dgetD d kParent = sha256_value H src := by
    rw [hd, transform_provenance_dgetD, if_neg hmp, hb4]
  have hlin : lineage_complete d = true := by
    unfold lineage_complete
    rw [List.all_eq_true]
    intro k hk
    rw [bne_iff_ne]
    fin_cases hk
    · rw [hdl]; decide
    · rw [hdb]; decide
    · rw [hda]; exact hts
    · rw [hdp]; exact hhe
  have hcont : (hashes H sources).contains (sha256_value H src) = true := by
    apply List.elem_iff.mpr
    unfold hashes
    rw [List.mem_map]
    exact ⟨src, hsrc, rfl⟩
  have hlook : by_hash H sources (sha256_value H src) = some src :=
    by_hash_resolves H sources src hsrc hinj
  have hmand : mfs.all (fun f => dgetD d f == dgetD src f) = true := by
    rw [List.all_eq_true]
    intro f hf
    rw [hd, transform_provenance_dgetD, if_pos hf]
    exact beq_self_eq_true _
  unfold audit_one_hop
  simp only [hlin, hdp, hcont, hlook, hmand, Bool.true_and, Bool.and_true]
  simp [List.isEmpty_eq_false.mpr hno]

/-- Witness for the amended C1 at a concrete one-record source list. -/
theorem c1_one_hop_accept_witness :
    audit_one_hop (hashes (fun s => String.append "#" s) [[("title", "t")]])
        (by_hash (fun s => String.append "#" s) [[("title", "t")]])
        (transform_provenance [("title", "t")] ["title"]
          (sha256_value (fun s => String.append "#" s) [("title", "t")])
          "2026-02-19")
        ["title"] = true :=
  c1_one_hop_accept (fun s => String.append "#" s) [[("title", "t")]]
    [("title", "t")] ["title"] "2026-02-19"
    (by decide)
    (by intro r1 h1 r2 h2 _
        have e1 : r1 = [("title", "t")] := by simpa using h1
        have e2 : r2 = [("title", "t")] := by simpa using h2
        rw [e1, e2])
    (by decide) (by decide) (by decide)
    (by decide) (by decide) (by decide) (by decide)

/-- C2 — For every two-hop derivative whose parent_sha256 resolves in
the intermediate (hop-1) fingerprint set and whose
ancestor_source_sha256 resolves in the source fingerprint set, if the
resolved intermediate record's own parent_sha256 differs from the
derivative's ancestor_source_sha256, then `audit_two_hop` returns
false. -/
theorem c2_two_hop_chain_consistency (srcHashes : List String)
    (srcLookup : String → Option Record) (hop1Hashes : List String)
    (hop1Lookup : String → Option Record) (d hop1rec : Record)
    (mfs : List String)
    (hp : hop1Hashes.contains (dgetD d kParent) = true)
    (ha : srcHashes.contains (dgetD d kAncestor) = true)
    (hres : hop1Lookup (dgetD d kParent) = some hop1rec)
    (hmm : dgetD hop1rec kParent ≠ dgetD d kAncestor) :
    audit_two_hop srcHashes srcLookup hop1Hashes hop1Lookup d mfs = false := by
  unfold audit_two_hop
  simp only [hp, ha, hres, Bool.true_and]
  have hbeq : (dgetD hop1rec kParent == dgetD d kAncestor) = false := by
    rw [beq_eq_false_iff_ne]
    exact hmm
  simp [hbeq]

/-- Witness for C2 at a concrete derivative and intermediate whose
parent pointer disagrees with the claimed ancestor. -/
theorem c2_two_hop_chain_consistency_witness :
    audit_two_hop ["s"] (fun _ => none) ["p"]
        (fun _ => some [(kParent, "x")])
        [(kParent, "p"), (kAncestor, "s")] [] = false :=
  c2_two_hop_chain_consistency ["s"] (fun _ => none) ["p"]
    (fun _ => some [(kParent, "x")]) [(kParent, "p"), (kAncestor, "s")]
    [(kParent, "x")] []
    (by decide) (by decide) rfl (by decide)

/-- Modelled from the Python standard library: `random.Random(seed)`
followed by `rng.shuffle(idxs)`.  The claims rely only on the shuffle
being a seed-determined permutation of its input, so the
Mersenne-Twister is modelled as sorting by a seeded mixing key. -/
def pyshuffle (seed : Nat) (l : List Nat) : List Nat :=
  (List.insertionSort (fun a b : Nat × Nat => a.1 ≤ b.1)
      (l.map (fun x => (((x + 1) * 2654435761 + (seed + 1) * 40503) %
        4294967296, x)))).map (fun p => p.2)

/-- The shuffle is a permutation of its input. -/
theorem pyshuffle_perm (seed : Nat) (l : List Nat) :
    (pyshuffle seed l).Perm l := by
  unfold pyshuffle
  have hs := List.perm_insertionSort (fun a b : Nat × Nat => a.1 ≤ b.1)
    (l.map (fun x => (((x + 1) * 2654435761 + (seed + 1) * 40503) %
      4294967296, x)))
  have := hs.map (fun p : Nat × Nat => p.2)
  rw [List.map_map] at this
  rw [show ((fun p : Nat × Nat => p.2) ∘
        fun x => (((x + 1) * 2654435761 + (seed + 1) * 40503) %
          4294967296, x)) = id from rfl, List.map_id] at this
  exact this

/-- `inject_indices` of both scripts (extended lines 273–278, llm lines
232–237): `k = max(1, int(n * frac))` — Python `int()` truncates the
non-negative product, i.e. takes the floor — then a seeded shuffle of
`range(n)`, the first `k` positions, returned sorted ascending. -/
def inject_indices (n : Nat) (frac : ℚ) (seed : Nat) : List Nat :=
  let k := max 1 (Int.toNat (Int.floor ((n : ℚ) * frac)))
  List.insertionSort (fun a b : Nat => a ≤ b)
    ((pyshuffle seed (List.range n)).take k)

/-- Every selected index is in range. -/
theorem inject_indices_lt (n : Nat) (frac : ℚ) (seed : Nat) :
    ∀ i ∈ inject_indices n frac seed, i < n := by
  intro i hi
  unfold inject_indices at hi
  have h1 := (List.perm_insertionSort (fun a b : Nat => a ≤ b) _).mem_iff.mp hi
  have h2 := (List.take_sublist _ _).mem h1
  have h3 := (pyshuffle_perm seed (List.range n)).mem_iff.mp h2
  exact List.mem_range.mp h3

/-- Counterexample to C4 as stated: at `n = 10`, `fraction = 1/4`, the
code selects `max(1, int(10 * 0.25)) = 2` indices while
`ceil(10 * 0.25) = 3`. -/
theorem c4_counterexample :
    (inject_indices 10 (1 / 4) 0).length ≠
      Int.toNat (Int.ceil ((10 : ℚ) * (1 / 4))) := by
  have hq : (10 : ℚ) * (1 / 4) = 5 / 2 := by norm_num
  have hfl : Int.floor ((10 : ℚ) * (1 / 4)) = 2 := by
    rw [hq, Int.floor_eq_iff] <;> norm_num
  have hcl : Int.ceil ((10 : ℚ) * (1 / 4)) = 3 := by
    rw [hq, Int.ceil_eq_iff] <;> norm_num
  unfold inject_indices
  simp only [Nat.cast_ofNat]
  rw [hfl, hcl]
  decide

/-- C4 amended — For every record count n ≥ 1, every fraction between
0 and 1, and every seed, the fault injector's index selection returns
exactly `max(1, floor(n * fraction))` distinct indices (the code
truncates with `int(...)` and clamps below by 1; it does not take the
ceiling), and two calls with the same n, fraction and seed return the
same index set (the selection is a pure function of them). -/
theorem c4_inject_indices_count (n : Nat) (frac : ℚ) (seed : Nat)
    (hn : 1 ≤ n) (h0 : 0 ≤ frac) (h1 : frac ≤ 1) :
    (inject_indices n frac seed).length =
        max 1 (Int.toNat (Int.floor ((n : ℚ) * frac))) ∧
      (inject_indices n frac seed).Nodup ∧
      inject_indices n frac seed = inject_indices n frac seed := by
  set k := max 1 (Int.toNat (Int.floor ((n : ℚ) * frac))) with hk
  have hkn : k ≤ n := by
    rw [hk]
    apply max_le hn
    have hle : (n : ℚ) * frac ≤ (n : ℚ) := by
      calc (n : ℚ) * frac ≤ (n : ℚ) * 1 := by
            apply mul_le_mul_of_nonneg_left h1
            exact_mod_cast Nat.zero_le n
        _ = (n : ℚ) := mul_one _
    have hfl : Int.floor ((n : ℚ) * frac) ≤ (n : ℤ) := by
      have := Int.floor_le_floor hle
      simpa using this
    calc Int.toNat (Int.floor ((n : ℚ) * frac)) ≤ Int.toNat (n : ℤ) :=
          Int.toNat_le_toNat hfl
      _ = n := Int.toNat_natCast n
  have hshufflen : (pyshuffle seed (List.range n)).length = n := by
    rw [(pyshuffle_perm seed (List.range n)).length_eq, List.length_range]
  have hlen : (inject_indices n frac seed).length = k := by
    unfold inject_indices
    rw [← hk,
        (List.perm_insertionSort (fun a b : Nat => a ≤ b) _).length_eq,
        List.length_take, hshufflen]
    exact min_eq_left hkn
  have hnd : (inject_indices n frac seed).Nodup := by
    unfold inject_indices
    rw [← hk]
    apply ((List.perm_insertionSort (fun a b : Nat => a ≤ b) _).nodup_iff).mpr
    apply (List.take_sublist _ _).nodup
    exact ((pyshuffle_perm seed (List.range n)).nodup_iff).mpr
      (List.nodup_range n)
  exact ⟨hlen, hnd, rfl⟩

/-- Witness for the amended C4 at n = 10, fraction 1/4, seed 0. -/
theorem c4_inject_indices_count_witness :
    (inject_indices 10 (1 / 4) 0).length =
        max 1 (Int.toNat (Int.floor ((10 : ℚ) * (1 / 4)))) ∧
      (inject_indices 10 (1 / 4) 0).Nodup ∧
      inject_indices 10 (1 / 4) 0 = inject_indices 10 (1 / 4) 0 :=
  c4_inject_indices_count 10 (1 / 4) 0 (by decide) (by norm_num) (by norm_num)

/-- The exception Python raises when a metric divides by zero. -/
inductive RunError where
  | zeroDivision
deriving DecidableEq

/-- One row of the per-scenario report (floats modelled exactly as
rationals; `detection_recall` is `none` for Python `None`). -/
structure ScenarioResult where
  scenario : String
  injected_count : Nat
  failed_count : Nat
  audit_pass_rate : ℚ
  audit_fail_rate : ℚ
  detection_recall : Option ℚ
  false_positive_rate : ℚ
deriving DecidableEq

/-- `scenario_result` (llm script lines 240–264; the closure of the
same name inside `run_failure_scenarios` of the extended script, lines
291–317, is the instance at `check_fn = audit_record`, with
`n = len(source) = len(mutated)`).  `failed` enumerates the indices
whose record fails the check; `detection_recall` is `None` when no
faults were injected; `false_positive_rate` clamps its denominator
with `max(1, ...)`; but `audit_pass_rate = (n - len(failed)) / n` and
`audit_fail_rate` divide by the bare record count, so a zero-record
collection raises `ZeroDivisionError`. -/
def scenario_result (nm : String) (mutated : List Record)
    (injected_idxs : List Nat) (check : Record → Bool) :
    Except RunError ScenarioResult :=
  let n := mutated.length
  let failed := (List.range n).filter (fun i => !(check (mutated.getD i [])))
  let inj := injected_idxs.toFinset
  let fail := failed.toFinset
  if n = 0 then Except.error RunError.zeroDivision
  else Except.ok
    { scenario := nm
      injected_count := injected_idxs.length
      failed_count := failed.length
      audit_pass_rate := ((n - failed.length : Nat) : ℚ) / (n : ℚ)
      audit_fail_rate := ((failed.length : Nat) : ℚ) / (n : ℚ)
      detection_recall :=
        if inj.card ≠ 0 then
          some (((inj ∩ fail).card : ℚ) / (inj.card : ℚ))
        else none
      false_positive_rate :=
        if inj.card ≠ 0 then
          ((fail \ inj).card : ℚ) / ((max 1 (n - inj.card) : Nat) : ℚ)
        else (fail.card : ℚ) / ((max 1 n : Nat) : ℚ) }

/-- C5 — The claim asserts the metric computations complete without
raising for every record collection including the empty one; but on a
zero-record collection `audit_pass_rate = (n - len(failed)) / n`
divides by zero and Python raises `ZeroDivisionError`, even though the
recall and false-positive denominators are carefully guarded in the
same function.  This theorem evaluates the embedded code at the
failing input. -/
theorem c5_zero_records_divide_by_zero :
    scenario_result "baseline_provenance" [] [] (fun _ => true) =
      Except.error RunError.zeroDivision := rfl

/-- The orphan digest `"deadbeef" * 8` that the fault injector writes
into `parent_sha256`. -/
def orphan_hash : String :=
  "deadbeefdeadbeefdeadbeefdeadbeefdeadbeefdeadbeefdeadbeefdeadbeef"

/-- The mutation loop `for i in idx: mut[i][k] = v` applied to the
fresh copy `[dict(x) for x in prov_records]` of a record list. -/
def set_field_at (prov : List Record) (idx : List Nat) (k v : String) :
    List Record :=
  idx.foldl (fun m i => m.set i (dset (m.getD i []) k v)) prov

/-- The mutation loop preserves the collection's length. -/
theorem set_field_at_length (prov : List Record) (idx : List Nat)
    (k v : String) :
    (set_field_at prov idx k v).length = prov.length := by
  unfold set_field_at
  induction idx generalizing prov with
  | nil => rfl
  | cons i t ih =>
      rw [List.foldl_cons, ih, List.length_set]

/-- Overwriting a key twice with the same value is the same as once. -/
theorem dset_dset_same (r : Record) (k v : String) :
    dset (dset r k v) k v = dset r k v := by
  have hff : ∀ p : String × String,
      (if ((if (p.1 == k) = true then (k, v) else p) :
            String × String).1 == k then (k, v)
       else if (p.1 == k) = true then (k, v) else p) =
        if (p.1 == k) = true then (k, v) else p := by
    intro p
    by_cases hp : (p.1 == k) = true
    · rw [if_pos hp, if_pos (by simp)]
    · rw [if_neg hp, if_neg hp]
  unfold dset
  by_cases h : hasKey r k = true
  · rw [if_pos h]
    have h2 : hasKey (r.map (fun p => if p.1 == k then (k, v) else p)) k
        = true := by
      unfold hasKey at h ⊢
      rw [List.any_eq_true] at h ⊢
      obtain ⟨p, hp, hpk⟩ := h
      refine ⟨(k, v), List.mem_map.mpr ⟨p, hp, by rw [if_pos hpk]⟩, by simp⟩
    rw [if_pos h2, List.map_map]
    apply List.map_congr_left
    intro p _
    exact hff p
  · rw [if_neg h]
    have h2 : hasKey (r ++ [(k, v)]) k = true := by
      unfold hasKey
      rw [List.any_eq_true]
      exact ⟨(k, v), by simp, by simp⟩
    rw [if_pos h2, List.map_append]
    have hr : r.map (fun p => if p.1 == k then (k, v) else p) = r := by
      conv_rhs => rw [← List.map_id r]
      apply List.map_congr_left
      intro p hp
      have hnp : ¬((p.1 == k) = true) := by
        intro hc
        exact h (by unfold hasKey; rw [List.any_eq_true]; exact ⟨p, hp, hc⟩)
      rw [if_neg hnp]
      rfl
    rw [hr]
    simp

/-- Pointwise description of the mutation loop for duplicate-free index
lists: mutated at the injected indices, untouched elsewhere. -/
theorem set_field_at_getD (prov : List Record) (idx : List Nat)
    (k v : String) (hnd : idx.Nodup) :
    ∀ j, j < prov.length →
      (set_field_at prov idx k v).getD j [] =
        if j ∈ idx then dset (prov.getD j []) k v else prov.getD j [] := by
  unfold set_field_at
  induction idx generalizing prov with
  | nil => intro j hj; simp
  | cons i t ih =>
      intro j hj
      rw [List.foldl_cons]
      have hnd' : t.Nodup := hnd.of_cons
      have hit : i ∉ t := (List.nodup_cons.mp hnd).1
      have hlen : (prov.set i (dset (prov.getD i []) k v)).length
          = prov.length := List.length_set _ _ _
      rw [ih _ hnd' j (by rw [hlen]; exact hj)]
      by_cases hjt : j ∈ t
      · rw [if_pos hjt, if_pos (List.mem_cons_of_mem i hjt)]
        have hji : j ≠ i := fun hc => hit (hc ▸ hjt)
        have : (prov.set i (dset (prov.getD i []) k v)).getD j [] =
            prov.getD j [] := by
          rw [List.getD_eq_getElem?_getD,
              List.getElem?_set_ne (fun hc => hji hc.symm)]
          exact (List.getD_eq_getElem?_getD _ _ _).symm
        rw [this]
      · rw [if_neg hjt]
        by_cases hji : j = i
        · subst hji
          rw [if_pos (List.mem_cons_self j t)]
          rw [List.getD_eq_getElem?_getD, List.getElem?_set_self hj]
          rfl
        · rw [if_neg (by simp [hji, hjt])]
          rw [List.getD_eq_getElem?_getD,
              List.getElem?_set_ne (fun hc => hji hc.symm)]
          exact (List.getD_eq_getElem?_getD _ _ _).symm

/-- Lineage completeness survives the orphan mutation: the three other
lineage fields are untouched and the orphan digest is non-empty. -/
theorem lineage_complete_orphan (d : Record)
    (hlin : lineage_complete d = true) :
    lineage_complete (dset d kParent orphan_hash) = true := by
  unfold lineage_complete at hlin ⊢
  rw [List.all_eq_true] at hlin ⊢
  intro k hk
  fin_cases hk
  · rw [dgetD_dset_ne _ _ _ _ (by decide)]
    exact hlin kLabel (by decide)
  · rw [dgetD_dset_ne _ _ _ _ (by decide)]
    exact hlin kBy (by decide)
  · rw [dgetD_dset_ne _ _ _ _ (by decide)]
    exact hlin kAt (by decide)
  · rw [dgetD_dset_self]
    decide

/-- A record whose `parent_sha256` is overwritten with the orphan
digest fails the one-hop audit whenever that digest is not a known
source fingerprint. -/
theorem audit_one_hop_orphan_fails (S : List String)
    (L : String → Option Record) (d : Record) (mfs : List String)
    (hlin : lineage_complete d = true)
    (horph : S.contains orphan_hash = false) :
    audit_one_hop S L (dset d kParent orphan_hash) mfs = false := by
  have hlinm := lineage_complete_orphan d hlin
  have hdp : dgetD (dset d kParent orphan_hash) kParent = orphan_hash :=
    dgetD_dset_self _ _ _
  unfold audit_one_hop
  simp only [hlinm, hdp, horph, Bool.true_and, Bool.false_and]

/-- A passing record is lineage-complete. -/
theorem lineage_complete_of_audit (S : List String)
    (L : String → Option Record) (d : Record) (mfs : List String)
    (hpass : audit_one_hop S L d mfs = true) :
    lineage_complete d = true := by
  unfold audit_one_hop at hpass
  rw [Bool.and_eq_true] at hpass
  exact hpass.1

/-- C3 — For every collection of derivative records that all pass the
one-hop audit (clean baseline), applying the orphan-parent fault class
(overwriting parent_sha256 with a value absent from the known source
fingerprint set) to the injected index subset makes the audit fail
exactly the injected records and no others, so the computed
detection_recall equals 1.0 and the computed false_positive_rate
equals 0.0. -/
theorem c3_orphan_detection (S : List String) (L : String → Option Record)
    (mfs : List String) (prov : List Record) (idx : List Nat) (nm : String)
    (hall : ∀ d ∈ prov, audit_record S L d mfs = true)
    (horph : S.contains orphan_hash = false)
    (hidx : ∀ i ∈ idx, i < prov.length)
    (hnd : idx.Nodup) (hne : idx ≠ []) :
    ∃ res,
      scenario_result nm (set_field_at prov idx kParent orphan_hash) idx
          (fun d => audit_record S L d mfs) = Except.ok res ∧
        res.detection_recall = some 1 ∧
        res.false_positive_rate = 0 ∧
        ∀ j, j < prov.length →
          (audit_record S L
              ((set_field_at prov idx kParent orphan_hash).getD j []) mfs
              = false ↔ j ∈ idx) := by
  set mtd := set_field_at prov idx kParent orphan_hash with hmut
  have hmutlen : mtd.length = prov.length := set_field_at_length _ _ _ _
  obtain ⟨i0, hi0⟩ : ∃ i, i ∈ idx := by
    cases idx with
    | nil => cases hne rfl
    | cons a t => exact ⟨a, List.mem_cons_self a t⟩
  have hn0 : ¬(mtd.length = 0) := by
    have := hidx i0 hi0
    omega
  have hgd : ∀ j, j < prov.length → prov.getD j [] ∈ prov := by
    intro j hj
    rw [List.getD_eq_getElem?_getD, List.getElem?_eq_getElem hj]
    exact List.getElem_mem hj
  have hkey : ∀ j, j < prov.length →
      (audit_record S L (mtd.getD j []) mfs = false ↔ j ∈ idx) := by
    intro j hj
    rw [hmut, set_field_at_getD prov idx kParent orphan_hash hnd j hj]
    by_cases hjidx : j ∈ idx
    · rw [if_pos hjidx]
      have hlin := lineage_complete_of_audit S L _ mfs (hall _ (hgd j hj))
      have hf := audit_one_hop_orphan_fails S L (prov.getD j []) mfs hlin horph
      exact ⟨fun _ => hjidx, fun _ => hf⟩
    · rw [if_neg hjidx]
      have hp := hall _ (hgd j hj)
      constructor
      · intro hc
        rw [hp] at hc
        cases hc
      · intro hc
        exact absurd hc hjidx
  have hfailset :
      ((List.range mtd.length).filter
        (fun i => !(audit_record S L (mtd.getD i []) mfs))).toFinset =
      idx.toFinset := by
    apply Finset.ext
    intro j
    rw [List.mem_toFinset, List.mem_toFinset, List.mem_filter, List.mem_range]
    constructor
    · rintro ⟨hjn, hjf⟩
      have hj' : j < prov.length := by rw [← hmutlen]; exact hjn
      exact (hkey j hj').mp (by simpa using hjf)
    · intro hj
      have hj' : j < prov.length := hidx j hj
      refine ⟨by rw [hmutlen]; exact hj', ?_⟩
      have hjf := (hkey j hj').mpr hj
      rw [hjf]
      rfl
  have hcard : idx.toFinset.card ≠ 0 :=
    Finset.card_ne_zero_of_mem (List.mem_toFinset.mpr hi0)
  unfold scenario_result
  rw [if_neg hn0]
  refine ⟨_, rfl, ?_, ?_, fun j hj => hkey j hj⟩
  · show (if idx.toFinset.card ≠ 0 then
        some ((((idx.toFinset ∩
          ((List.range mtd.length).filter
            (fun i => !(audit_record S L (mtd.getD i []) mfs))).toFinset).card :
              ℚ)) / (idx.toFinset.card : ℚ))
      else none) = some 1
    rw [hfailset, if_pos hcard, Finset.inter_self]
    congr 1
    exact div_self (Nat.cast_ne_zero.mpr hcard)
  · show (if idx.toFinset.card ≠ 0 then
        (((((List.range mtd.length).filter
            (fun i => !(audit_record S L (mtd.getD i []) mfs))).toFinset \
          idx.toFinset).card : ℚ)) /
            ((max 1 (mtd.length - idx.toFinset.card) : Nat) : ℚ)
      else ((((List.range mtd.length).filter
          (fun i => !(audit_record S L (mtd.getD i []) mfs))).toFinset.card :
            ℚ)) / ((max 1 mtd.length : Nat) : ℚ)) = 0
    rw [hfailset, if_pos hcard, Finset.sdiff_self]
    simp

/-- Witness for C3: two derivatives that pass against a one-source
world, with index 0 injected. -/
theorem c3_orphan_detection_witness :
    ∃ res,
      scenario_result "orphan_parent_link"
          (set_field_at
            [[(kLabel, "L"), (kBy, "B"), (kAt, "T"), (kParent, "h"),
              ("title", "t")],
             [(kLabel, "L"), (kBy, "B"), (kAt, "T"), (kParent, "h"),
              ("title", "t")]]
            [0] kParent orphan_hash) [0]
          (fun d => audit_record ["h"]
            (fun _ => some [("title", "t")]) d ["title"]) = Except.ok res ∧
        res.detection_recall = some 1 ∧
        res.false_positive_rate = 0 ∧
        ∀ j, j < ([[(kLabel, "L"), (kBy, "B"), (kAt, "T"), (kParent, "h"),
              ("title", "t")],
             [(kLabel, "L"), (kBy, "B"), (kAt, "T"), (kParent, "h"),
              ("title", "t")]] : List Record).length →
          (audit_record ["h"] (fun _ => some [("title", "t")])
              ((set_field_at
                [[(kLabel, "L"), (kBy, "B"), (kAt, "T"), (kParent, "h"),
                  ("title", "t")],
                 [(kLabel, "L"), (kBy, "B"), (kAt, "T"), (kParent, "h"),
                  ("title", "t")]]
                [0] kParent orphan_hash).getD j []) ["title"]
              = false ↔ j ∈ ([0] : List Nat)) :=
  c3_orphan_detection ["h"] (fun _ => some [("title", "t")]) ["title"]
    [[(kLabel, "L"), (kBy, "B"), (kAt, "T"), (kParent, "h"), ("title", "t")],
     [(kLabel, "L"), (kBy, "B"), (kAt, "T"), (kParent, "h"), ("title", "t")]]
    [0] "orphan_parent_link"
    (by intro d hd
        have : d = [(kLabel, "L"), (kBy, "B"), (kAt, "T"), (kParent, "h"),
            ("title", "t")] := by
          rcases List.mem_cons.mp hd with h | h
          · exact h
          · simpa using h
        rw [this]
        decide)
    (by decide) (by decide) (by decide) (by decide)

/-- Indexing with a default inside the bound stays in the list. -/
theorem getD_mem_records (l : List Record) (j : Nat) (hj : j < l.length) :
    l.getD j [] ∈ l := by
  rw [List.getD_eq_getElem?_getD, List.getElem?_eq_getElem hj]
  exact List.getElem_mem hj

/-- Lineage completeness survives a mutation of a non-lineage field. -/
theorem lineage_complete_dset_ne (d : Record) (f v : String)
    (hfl : f ≠ kLabel) (hfb : f ≠ kBy) (hfa : f ≠ kAt) (hfp : f ≠ kParent)
    (hlin : lineage_complete d = true) :
    lineage_complete (dset d f v) = true := by
  unfold lineage_complete at hlin ⊢
  rw [List.all_eq_true] at hlin ⊢
  intro k hk
  fin_cases hk
  · rw [dgetD_dset_ne _ _ _ _ hfl.symm]
    exact hlin kLabel (by decide)
  · rw [dgetD_dset_ne _ _ _ _ hfb.symm]
    exact hlin kBy (by decide)
  · rw [dgetD_dset_ne _ _ _ _ hfa.symm]
    exact hlin kAt (by decide)
  · rw [dgetD_dset_ne _ _ _ _ hfp.symm]
    exact hlin kParent (by decide)

/-- Mutating one mandatory context field of a record that passes the
one-hop audit to a value different from its current (source-copied)
value makes the one-hop audit reject it. -/
theorem audit_one_hop_field_mutation (S : List String)
    (L : String → Option Record) (d : Record) (mfs : List String)
    (f v : String)
    (hpass : audit_one_hop S L d mfs = true)
    (hf : f ∈ mfs)
    (hfl : f ≠ kLabel) (hfb : f ≠ kBy) (hfa : f ≠ kAt) (hfp : f ≠ kParent)
    (hv : v ≠ dgetD d f) :
    audit_one_hop S L (dset d f v) mfs = false := by
  cases hL : L (dgetD d kParent) with
  | none =>
      simp [audit_one_hop, hL] at hpass
  | some src =>
      simp only [audit_one_hop, hL, Bool.and_eq_true] at hpass
      obtain ⟨hlin, hcont, hne, hmand⟩ := hpass
      have hdp : dgetD (dset d f v) kParent = dgetD d kParent :=
        dgetD_dset_ne _ _ _ _ hfp.symm
      have hlinm := lineage_complete_dset_ne d f v hfl hfb hfa hfp hlin
      have hmandm :
          mfs.all (fun g => dgetD (dset d f v) g == dgetD src g) = false := by
        rw [Bool.eq_false_iff]
        intro hc
        rw [List.all_eq_true] at hc hmand
        have h1 := hc f hf
        rw [dgetD_dset_self] at h1
        have hveq : v = dgetD src f := by simpa using h1
        have hdf : dgetD d f = dgetD src f := by simpa using hmand f hf
        exact hv (by rw [hveq, hdf])
      simp only [audit_one_hop, hdp, hL, hlinm, hcont, hmandm,
        Bool.true_and, Bool.and_false]

/-- Mutating one mandatory context field of a record that passes the
two-hop audit to a value different from its current value makes the
two-hop audit reject it. -/
theorem audit_two_hop_field_mutation (S : List String)
    (sL : String → Option Record) (Hh : List String)
    (hL : String → Option Record) (d : Record) (mfs : List String)
    (f v : String)
    (hpass : audit_two_hop S sL Hh hL d mfs = true)
    (hf : f ∈ mfs)
    (hfl : f ≠ kLabel) (hfb : f ≠ kBy) (hfa : f ≠ kAt) (hfp : f ≠ kParent)
    (hfan : f ≠ kAncestor)
    (hv : v ≠ dgetD d f) :
    audit_two_hop S sL Hh hL (dset d f v) mfs = false := by
  cases hLp : hL (dgetD d kParent) with
  | none =>
      simp [audit_two_hop, hLp] at hpass
  | some hop1 =>
      cases hLa : sL (dgetD d kAncestor) with
      | none =>
          simp [audit_two_hop, hLp, hLa] at hpass
      | some src =>
          simp only [audit_two_hop, hLp, hLa, Bool.and_eq_true] at hpass
          obtain ⟨hlin, hcp, hca, ⟨hne1, heq1⟩, hne2, hmand⟩ := hpass
          have hdp : dgetD (dset d f v) kParent = dgetD d kParent :=
            dgetD_dset_ne _ _ _ _ hfp.symm
          have hda : dgetD (dset d f v) kAncestor = dgetD d kAncestor :=
            dgetD_dset_ne _ _ _ _ hfan.symm
          have hlinm := lineage_complete_dset_ne d f v hfl hfb hfa hfp hlin
          have hmandm :
              mfs.all (fun g => dgetD (dset d f v) g == dgetD src g)
                = false := by
            rw [Bool.eq_false_iff]
            intro hc
            rw [List.all_eq_true] at hc hmand
            have h1 := hc f hf
            rw [dgetD_dset_self] at h1
            have hveq : v = dgetD src f := by simpa using h1
            have hdf : dgetD d f = dgetD src f := by simpa using hmand f hf
            exact hv (by rw [hveq, hdf])
          simp only [audit_two_hop, hdp, hda, hLp, hLa, hlinm, hcp, hca,
            hne1, heq1, hne2, hmandm, Bool.true_and, Bool.and_false]

/-- Mutating exactly one index of a collection of records that all
satisfy a Boolean audit, with a mutated record that fails it, makes
the audit fail exactly at that index. -/
theorem audit_set_only_at (A : Record → Bool) (l : List Record) (i : Nat)
    (d' : Record)
    (hall : ∀ d ∈ l, A d = true) (hi : i < l.length) (hd' : A d' = false) :
    ∀ j, j < l.length → (A ((l.set i d').getD j []) = false ↔ j = i) := by
  intro j hj
  by_cases hji : j = i
  · subst hji
    rw [List.getD_eq_getElem?_getD, List.getElem?_set_self hj]
    exact ⟨fun _ => rfl, fun _ => hd'⟩
  · rw [List.getD_eq_getElem?_getD,
        List.getElem?_set_ne (fun hc => hji hc.symm),
        List.getElem?_eq_getElem hj]
    have hp := hall (l[j]) (List.getElem_mem hj)
    show A (l[j]) = false ↔ j = i
    constructor
    · intro hc
      rw [hp] at hc
      cases hc
    · intro hc
      exact absurd hc hji

/-- C7 — For every collection of derivative records that all pass the
audit (clean baseline), changing the value of any single mandatory
context field on one derivative record causes `audit_one_hop` (and
`audit_two_hop`, for two-hop derivatives) to reject that record and
only that record; all unmodified records still pass.  The mutated
field is a context field: it is none of the lineage keys. -/
theorem c7_context_fidelity (S : List String) (L : String → Option Record)
    (mfs : List String) (prov : List Record) (i : Nat) (f v : String)
    (hall : ∀ d ∈ prov, audit_one_hop S L d mfs = true)
    (hi : i < prov.length) (hf : f ∈ mfs)
    (hfl : f ≠ kLabel) (hfb : f ≠ kBy) (hfa : f ≠ kAt) (hfp : f ≠ kParent)
    (hfan : f ≠ kAncestor)
    (hv : v ≠ dgetD (prov.getD i []) f)
    (S2 : List String) (sL2 : String → Option Record) (H2 : List String)
    (hL2 : String → Option Record) (d2 : Record)
    (h2pass : audit_two_hop S2 sL2 H2 hL2 d2 mfs = true)
    (hv2 : v ≠ dgetD d2 f) :
    (∀ j, j < prov.length →
      (audit_one_hop S L
          ((prov.set i (dset (prov.getD i []) f v)).getD j []) mfs = false
        ↔ j = i)) ∧
      audit_two_hop S2 sL2 H2 hL2 (dset d2 f v) mfs = false := by
  constructor
  · exact audit_set_only_at (fun d => audit_one_hop S L d mfs) prov i _
      hall hi
      (audit_one_hop_field_mutation S L (prov.getD i []) mfs f v
        (hall _ (getD_mem_records prov i hi)) hf hfl hfb hfa hfp hv)
  · exact audit_two_hop_field_mutation S2 sL2 H2 hL2 d2 mfs f v
      h2pass hf hfl hfb hfa hfp hfan hv2

/-- Witness for C7 at a concrete one-record collection and a concrete
two-hop derivative, mutating the mandatory field `title`. -/
theorem c7_context_fidelity_witness :
    (∀ j, j < ([[(kLabel, "L"), (kBy, "B"), (kAt, "T"), (kParent, "h"),
          ("title", "t")]] : List Record).length →
      (audit_one_hop ["h"] (fun _ => some [("title", "t")])
          ((([[(kLabel, "L"), (kBy, "B"), (kAt, "T"), (kParent, "h"),
              ("title", "t")]] : List Record).set 0
            (dset (([[(kLabel, "L"), (kBy, "B"), (kAt, "T"), (kParent, "h"),
              ("title", "t")]] : List Record).getD 0 []) "title" "u")).getD
            j []) ["title"] = false
        ↔ j = 0)) ∧
      audit_two_hop ["s"] (fun _ => some [("title", "t")]) ["p"]
        (fun _ => some [(kParent, "s")])
        (dset [(kLabel, "L"), (kBy, "B"), (kAt, "T"), (kParent, "p"),
          (kAncestor, "s"), ("title", "t")] "title" "u") ["title"] = false :=
  c7_context_fidelity ["h"] (fun _ => some [("title", "t")]) ["title"]
    [[(kLabel, "L"), (kBy, "B"), (kAt, "T"), (kParent, "h"), ("title", "t")]]
    0 "title" "u"
    (by intro d hd
        have hde : d = [(kLabel, "L"), (kBy, "B"), (kAt, "T"),
            (kParent, "h"), ("title", "t")] := by simpa using hd
        rw [hde]
        decide)
    (by decide) (by decide) (by decide) (by decide) (by decide) (by decide)
    (by decide) (by decide)
    ["s"] (fun _ => some [("title", "t")]) ["p"]
    (fun _ => some [(kParent, "s")])
    [(kLabel, "L"), (kBy, "B"), (kAt, "T"), (kParent, "p"),
      (kAncestor, "s"), ("title", "t")]
    (by decide) (by decide)

/-- Appending a pair carrying the empty string for a key that is absent
changes no defaulted lookup: Python's `rec.get(k, "")` and the falsy
test `not rec.get(k)` cannot tell the two records apart. -/
theorem dgetD_append_absent (d : Record) (k : String)
    (hk : dget d k = none) :
    ∀ k', dgetD (d ++ [(k, "")]) k' = dgetD d k' := by
  intro k'
  unfold dgetD dget
  rw [List.find?_append]
  by_cases hkk : k' = k
  · subst hkk
    have hfd : d.find? (fun p => p.1 == k') = none := by
      unfold dget at hk
      exact Option.map_eq_none.mp hk
    rw [hfd]
    simp [List.find?_cons]
  · have hkn : ¬(k = k') := fun hc => hkk hc.symm
    have hone : List.find? (fun p => p.1 == k') [(k, "")] = none := by
      simp [List.find?_cons, hkn]
    rw [hone]
    cases d.find? (fun p => p.1 == k') <;> rfl

/-- Lineage completeness only reads defaulted lookups. -/
theorem lineage_complete_congr (d1 d2 : Record)
    (h : ∀ k, dgetD d1 k = dgetD d2 k) :
    lineage_complete d1 = lineage_complete d2 := by
  unfold lineage_complete
  simp only [h]

/-- The one-hop audit reads the derivative only through defaulted
lookups. -/
theorem audit_one_hop_congr (S : List String) (L : String → Option Record)
    (mfs : List String) (d1 d2 : Record)
    (h : ∀ k, dgetD d1 k = dgetD d2 k) :
    audit_one_hop S L d1 mfs = audit_one_hop S L d2 mfs := by
  unfold audit_one_hop
  rw [lineage_complete_congr d1 d2 h]
  simp only [h]

/-- The two-hop audit reads the derivative only through defaulted
lookups. -/
theorem audit_two_hop_congr (S : List String) (sL : String → Option Record)
    (Hh : List String) (hL : String → Option Record)
    (mfs : List String) (d1 d2 : Record)
    (h : ∀ k, dgetD d1 k = dgetD d2 k) :
    audit_two_hop S sL Hh hL d1 mfs = audit_two_hop S sL Hh hL d2 mfs := by
  unfold audit_two_hop
  rw [lineage_complete_congr d1 d2 h]
  simp only [h]

/-- C10 — `lineage_complete`, `audit_one_hop`/`audit_record` and
`audit_two_hop` are total Boolean functions of the record (the
embedding returns a `Bool` on every input, mirroring that the Python
code only uses `rec.get(...)` defaulting lookups and so never raises),
and they treat absent fields as empty strings: a record with a field
absent and the same record with that field present but empty are
judged identically by all three. -/
theorem c10_absent_field_eq_empty (S : List String)
    (L : String → Option Record) (S1 : List String)
    (sL1 : String → Option Record) (H1 : List String)
    (hL1 : String → Option Record) (mfs : List String) (d : Record)
    (k : String) (hk : dget d k = none) :
    lineage_complete (d ++ [(k, "")]) = lineage_complete d ∧
      audit_one_hop S L (d ++ [(k, "")]) mfs = audit_one_hop S L d mfs ∧
      audit_record S L (d ++ [(k, "")]) mfs = audit_record S L d mfs ∧
      audit_two_hop S1 sL1 H1 hL1 (d ++ [(k, "")]) mfs =
        audit_two_hop S1 sL1 H1 hL1 d mfs := by
  have hcong := dgetD_append_absent d k hk
  exact ⟨lineage_complete_congr _ _ hcong,
    audit_one_hop_congr S L mfs _ _ hcong,
    audit_one_hop_congr S L mfs _ _ hcong,
    audit_two_hop_congr S1 sL1 H1 hL1 mfs _ _ hcong⟩

/-- Witness for C10: a derivative lacking `title`, compared against
itself with `title` present but empty. -/
theorem c10_absent_field_eq_empty_witness :
    lineage_complete ([(kParent, "p")] ++ [("title", "")]) =
        lineage_complete [(kParent, "p")] ∧
      audit_one_hop ["p"] (fun _ => none)
          ([(kParent, "p")] ++ [("title", "")]) ["title"] =
        audit_one_hop ["p"] (fun _ => none) [(kParent, "p")] ["title"] ∧
      audit_record ["p"] (fun _ => none)
          ([(kParent, "p")] ++ [("title", "")]) ["title"] =
        audit_record ["p"] (fun _ => none) [(kParent, "p")] ["title"] ∧
      audit_two_hop ["s"] (fun _ => none) ["p"] (fun _ => none)
          ([(kParent, "p")] ++ [("title", "")]) ["title"] =
        audit_two_hop ["s"] (fun _ => none) ["p"] (fun _ => none)
          [(kParent, "p")] ["title"] :=
  c10_absent_field_eq_empty ["p"] (fun _ => none) ["s"] (fun _ => none)
    ["p"] (fun _ => none) ["title"] [(kParent, "p")] "title" (by decide)

/-- A heap of Python dict objects: the address of a record is its
index in the store.  This models the aliasing structure of
`run_failure_scenarios` (extended script lines 281–353): the list
`prov_records` holds addresses of the builder's records, and each
scenario's `mut = [dict(x) for x in prov_records]` allocates fresh
copies at fresh addresses before `mut[i][k] = v` writes to them. -/
structure Heap where
  recs : List Record

/-- Dereference an address (reads of unallocated addresses default to
the empty dict; the model never performs one). -/
def hread (h : Heap) (a : Nat) : Record :=
  h.recs.getD a []

/-- Overwrite the object at an address. -/
def hwrite (h : Heap) (a : Nat) (r : Record) : Heap :=
  ⟨h.recs.set a r⟩

/-- The copy `[dict(x) for x in prov_records]`: fresh objects with the
same contents, appended at fresh addresses. -/
def allocCopies (h : Heap) (addrs : List Nat) : Heap × List Nat :=
  (⟨h.recs ++ addrs.map (hread h)⟩,
   List.range' h.recs.length addrs.length)

/-- The mutation loop `for i in idx: mut[i][k] = v` acting on the heap
through the copy's address list. -/
def mutate_at (h : Heap) (mutAddrs : List Nat) (idx : List Nat)
    (k v : String) : Heap :=
  idx.foldl (fun hh i =>
    hwrite hh (mutAddrs.getD i 0)
      (dset (hread hh (mutAddrs.getD i 0)) k v)) h

/-- One fault scenario: deep-copy the baseline collection, then mutate
the injected indices of the copy. -/
def scenario_heap (h : Heap) (provAddrs : List Nat) (idx : List Nat)
    (k v : String) : Heap :=
  mutate_at (allocCopies h provAddrs).1 (allocCopies h provAddrs).2 idx k v

/-- The heap evolution of `run_failure_scenarios` (extended script):
the baseline copy, then the orphan-parent (fraction 0.10, seed 61),
missing-`generated_by` (seed 71), context-erasure on the first
mandatory field (seed 81) and label-stripping (seed 91) scenarios,
each operating on its own fresh copy of the baseline records. -/
def run_failure_scenarios_heap (h : Heap) (provAddrs : List Nat)
    (mfs : List String) : Heap :=
  let n := provAddrs.length
  let h0 := (allocCopies h provAddrs).1
  let h1 := scenario_heap h0 provAddrs (inject_indices n (1 / 10) 61)
    kParent orphan_hash
  let h2 := scenario_heap h1 provAddrs (inject_indices n (1 / 10) 71)
    kBy ""
  let h3 := scenario_heap h2 provAddrs (inject_indices n (1 / 10) 81)
    (mfs.getD 0 "") ""
  scenario_heap h3 provAddrs (inject_indices n (1 / 10) 91) kLabel ""

/-- Writes preserve the store's extent. -/
theorem hwrite_length (h : Heap) (a : Nat) (r : Record) :
    (hwrite h a r).recs.length = h.recs.length :=
  List.length_set _ _ _

/-- Reads at other addresses are unaffected by a write. -/
theorem hread_hwrite_ne (h : Heap) (a b : Nat) (r : Record) (hab : a ≠ b) :
    hread (hwrite h b r) a = hread h a := by
  unfold hread hwrite
  rw [List.getD_eq_getElem?_getD, List.getElem?_set_ne (fun hc => hab hc.symm)]
  exact (List.getD_eq_getElem?_getD _ _ _).symm

/-- The mutation loop neither moves the store's extent nor touches any
address outside the copy's address list. -/
theorem mutate_at_preserves (mutAddrs idx : List Nat) (k v : String) :
    ∀ (h : Heap) (a : Nat), (∀ i ∈ idx, a ≠ mutAddrs.getD i 0) →
      hread (mutate_at h mutAddrs idx k v) a = hread h a ∧
        (mutate_at h mutAddrs idx k v).recs.length = h.recs.length := by
  induction idx with
  | nil => intro h a _; exact ⟨rfl, rfl⟩
  | cons i t ih =>
      intro h a hne
      unfold mutate_at
      rw [List.foldl_cons]
      have hstep := ih
        (hwrite h (mutAddrs.getD i 0)
          (dset (hread h (mutAddrs.getD i 0)) k v)) a
        (fun j hj => hne j (List.mem_cons_of_mem i hj))
      unfold mutate_at at hstep
      refine ⟨?_, ?_⟩
      · rw [hstep.1]
        exact hread_hwrite_ne _ _ _ _ (hne i (List.mem_cons_self i t))
      · rw [hstep.2, hwrite_length]

/-- The fresh copy leaves every already-allocated address readable and
unchanged. -/
theorem allocCopies_read (h : Heap) (addrs : List Nat) (a : Nat)
    (ha : a < h.recs.length) :
    hread (allocCopies h addrs).1 a = hread h a := by
  unfold allocCopies hread
  simp only
  rw [List.getD_eq_getElem?_getD, List.getElem?_append_left ha]
  exact (List.getD_eq_getElem?_getD _ _ _).symm

/-- One scenario: reads below the pre-scenario extent are unchanged,
and the extent only grows. -/
theorem scenario_heap_preserves (h : Heap) (provAddrs idx : List Nat)
    (k v : String) (a : Nat) (ha : a < h.recs.length)
    (hidx : ∀ i ∈ idx, i < provAddrs.length) :
    hread (scenario_heap h provAddrs idx k v) a = hread h a ∧
      h.recs.length ≤ (scenario_heap h provAddrs idx k v).recs.length := by
  unfold scenario_heap
  have hlen1 : (allocCopies h provAddrs).1.recs.length =
      h.recs.length + provAddrs.length := by
    unfold allocCopies
    simp
  have haddr : ∀ i ∈ idx, a ≠ (allocCopies h provAddrs).2.getD i 0 := by
    intro i hi
    have hil : i < provAddrs.length := hidx i hi
    have : (allocCopies h provAddrs).2.getD i 0 = h.recs.length + i := by
      unfold allocCopies
      simp only
      rw [List.getD_eq_getElem?_getD,
          List.getElem?_eq_getElem (by simpa using hil)]
      simp [List.getElem_range']
    rw [this]
    omega
  have hm := mutate_at_preserves (allocCopies h provAddrs).2 idx k v
    (allocCopies h provAddrs).1 a haddr
  refine ⟨?_, ?_⟩
  · rw [hm.1]
    exact allocCopies_read h provAddrs a ha
  · rw [hm.2, hlen1]
    omega

/-- C9 — For every derivative record collection held in the heap,
running the fault-injection scenarios (baseline copy, orphan parent,
missing lineage metadata, context erasure, label stripping) leaves the
original derivative records unchanged: each scenario mutates only its
own independent copy, so after all scenarios the baseline collection
is field-for-field identical to what the builder produced. -/
theorem c9_scenarios_preserve_baseline (h : Heap) (provAddrs : List Nat)
    (mfs : List String)
    (ha : ∀ a ∈ provAddrs, a < h.recs.length) :
    ∀ a ∈ provAddrs,
      hread (run_failure_scenarios_heap h provAddrs mfs) a = hread h a := by
  intro a hap
  have ha0 : a < h.recs.length := ha a hap
  unfold run_failure_scenarios_heap
  simp only
  set n := provAddrs.length with hn
  have hi61 := inject_indices_lt n (1 / 10) 61
  have hi71 := inject_indices_lt n (1 / 10) 71
  have hi81 := inject_indices_lt n (1 / 10) 81
  have hi91 := inject_indices_lt n (1 / 10) 91
  set h0 := (allocCopies h provAddrs).1 with hh0
  have hl0 : a < h0.recs.length := by
    rw [hh0]
    unfold allocCopies
    simp only [List.length_append]
    omega
  have hr0 : hread h0 a = hread h a := allocCopies_read h provAddrs a ha0
  have hs1 := scenario_heap_preserves h0 provAddrs
    (inject_indices n (1 / 10) 61) kParent orphan_hash a hl0 hi61
  set h1 := scenario_heap h0 provAddrs (inject_indices n (1 / 10) 61)
    kParent orphan_hash with hh1
  have hl1 : a < h1.recs.length := lt_of_lt_of_le hl0 hs1.2
  have hs2 := scenario_heap_preserves h1 provAddrs
    (inject_indices n (1 / 10) 71) kBy "" a hl1 hi71
  set h2 := scenario_heap h1 provAddrs (inject_indices n (1 / 10) 71)
    kBy "" with hh2
  have hl2 : a < h2.recs.length := lt_of_lt_of_le hl1 hs2.2
  have hs3 := scenario_heap_preserves h2 provAddrs
    (inject_indices n (1 / 10) 81) (mfs.getD 0 "") "" a hl2 hi81
  set h3 := scenario_heap h2 provAddrs (inject_indices n (1 / 10) 81)
    (mfs.getD 0 "") "" with hh3
  have hl3 : a < h3.recs.length := lt_of_lt_of_le hl2 hs3.2
  have hs4 := scenario_heap_preserves h3 provAddrs
    (inject_indices n (1 / 10) 91) kLabel "" a hl3 hi91
  rw [hs4.1, hs3.1, hs2.1, hs1.1, hr0]

/-- Witness for C9 at a one-record heap, read back at address 0. -/
theorem c9_scenarios_preserve_baseline_witness :
    hread (run_failure_scenarios_heap
        ⟨[[(kLabel, "L"), ("title", "t")]]⟩ [0] ["title"]) 0 =
      hread ⟨[[(kLabel, "L"), ("title", "t")]]⟩ 0 :=
  c9_scenarios_preserve_baseline ⟨[[(kLabel, "L"), ("title", "t")]]⟩
    [0] ["title"] (by decide) 0 (by decide)

/-- A Python value as the canonicalizer sees it: the pipeline's records
are string-valued, but `canonical_json` accepts any value and
`json.dumps` raises for one it cannot serialize (a set, a custom
object); such a value is `nonSerializable`. -/
inductive PyVal where
  | str : String → PyVal
  | nonSerializable : PyVal
deriving DecidableEq

/-- A record whose values may include a non-serializable one. -/
abbrev RecordV := List (String × PyVal)

/-- The error the spec names `EncodingError` (Python: the `TypeError`
raised by `json.dumps` on a non-serializable value). -/
inductive EncodingError where
  | notSerializable
deriving DecidableEq

/-- Serialization of one value; fails on a non-serializable one. -/
def jval : PyVal → Except EncodingError String
  | PyVal.str s => Except.ok (jstr s)
  | PyVal.nonSerializable => Except.error EncodingError.notSerializable

/-- Key-sorting for general-valued records (`sort_keys=True`). -/
def sortPairsV (r : RecordV) : RecordV :=
  List.insertionSort keyLE r

/-- `canonical_json` on a general-valued record: serialize each sorted
pair, failing as soon as a value is not serializable. -/
def canonical_jsonV (r : RecordV) : Except EncodingError String :=
  ((sortPairsV r).mapM
      (fun p => (jval p.2).map (fun sv => jstr p.1 ++ ":" ++ sv))).map
    (fun parts => "\x7b" ++ String.intercalate "," parts ++ "\x7d")

/-- `sha256_value` on a general-valued record. -/
def sha256_valueV (H : String → String) (r : RecordV) :
    Except EncodingError String :=
  (canonical_jsonV r).map H

/-- The hashing loop `[sha256_value(x) for x in records]`: a Python
list comprehension propagates the first exception and aborts the
whole traversal — no element after the failing one is processed and
no per-record result survives. -/
def hash_allV (H : String → String) (rs : List RecordV) :
    Except EncodingError (List String) :=
  rs.mapM (sha256_valueV H)

/-- Whether a record contains a non-serializable value. -/
def has_bad (r : RecordV) : Bool :=
  r.any (fun p => p.2 == PyVal.nonSerializable)

/-- Traversal in the exception monad dies when any element fails. -/
theorem mapM_except_error {α β : Type} (f : α → Except EncodingError β)
    (l : List α) (a : α) (ha : a ∈ l)
    (hfa : f a = Except.error EncodingError.notSerializable) :
    l.mapM f = Except.error EncodingError.notSerializable := by
  induction l with
  | nil => cases ha
  | cons b t ih =>
      rw [List.mapM_cons]
      rcases List.mem_cons.mp ha with hab | hat
      · subst hab
        rw [hfa]
        rfl
      · cases hfb : f b with
        | error e =>
            cases e
            rfl
        | ok x =>
            rw [ih hat]
            rfl

/-- The canonicalizer fails with the encoding error exactly where a
record carries a non-serializable value. -/
theorem canonical_jsonV_error (r : RecordV) (hb : has_bad r = true) :
    canonical_jsonV r = Except.error EncodingError.notSerializable := by
  unfold has_bad at hb
  rw [List.any_eq_true] at hb
  obtain ⟨p, hp, hpb⟩ := hb
  have hps : p ∈ sortPairsV r :=
    (List.perm_insertionSort keyLE r).mem_iff.mpr hp
  have hpe : p.2 = PyVal.nonSerializable := by simpa using hpb
  have hfp : (jval p.2).map (fun sv => jstr p.1 ++ ":" ++ sv) =
      Except.error EncodingError.notSerializable := by
    rw [hpe]
    rfl
  unfold canonical_jsonV
  rw [mapM_except_error _ _ p hps hfp]
  rfl

/-- A batch containing a record with a non-serializable value produces
no report at all: the hashing loop aborts with the encoding error. -/
theorem hash_allV_error (H : String → String) (rs : List RecordV)
    (r : RecordV) (hr : r ∈ rs) (hb : has_bad r = true) :
    hash_allV H rs = Except.error EncodingError.notSerializable := by
  apply mapM_except_error _ _ r hr
  unfold sha256_valueV
  rw [canonical_jsonV_error r hb]
  rfl

/-- Counterexample to C8 as stated: the claim says the encoding
failure is fatal only for the single offending record and not for the
whole run, but no caller catches it — the batch traversal containing
one bad record (between two good ones) aborts with the error and
yields no output for the good records. -/
theorem c8_counterexample :
    hash_allV (fun s => s)
        [[("a", PyVal.str "1")], [("b", PyVal.nonSerializable)],
         [("c", PyVal.str "3")]] =
      Except.error EncodingError.notSerializable := by
  rfl

/-- C8 amended — For every record containing a value that cannot be
represented in the canonical encoding, the canonicalizer fails with
EncodingError; and the failure is fatal for any whole run whose batch
contains that record: nothing in the pipeline confines it to the
single record. -/
theorem c8_encoding_error (H : String → String) (r : RecordV)
    (rs : List RecordV) (hb : has_bad r = true) :
    canonical_jsonV r = Except.error EncodingError.notSerializable ∧
      (r ∈ rs →
        hash_allV H rs = Except.error EncodingError.notSerializable) :=
  ⟨canonical_jsonV_error r hb, fun hr => hash_allV_error H rs r hr hb⟩

/-- Witness for the amended C8 at a concrete bad record and batch. -/
theorem c8_encoding_error_witness :
    canonical_jsonV [("b", PyVal.nonSerializable)] =
        Except.error EncodingError.notSerializable ∧
      ([("b", PyVal.nonSerializable)] ∈
          ([[("b", PyVal.nonSerializable)]] : List RecordV) →
        hash_allV (fun s => s) [[("b", PyVal.nonSerializable)]] =
          Except.error EncodingError.notSerializable) :=
  c8_encoding_error (fun s => s) [("b", PyVal.nonSerializable)]
    [[("b", PyVal.nonSerializable)]] (by decide)

end Provenance
